import Mathlib

/-!
# Verification of the beta/csv Scanner and Generator

Shallow embedding of the Go package `github.com/beta/csv` (files
`scanner.go`, `generator.go`, `csv.go`): a configurable-dialect CSV
scanner and generator.  Go strings are modelled as `List Char` (the Go
code works rune-at-a-time), the `bufio.Reader` over an in-memory byte
slice is modelled as the not-yet-read `List Char`, and the
`bufio.Writer`/`bytes.Buffer` pair of the generator is modelled as two
`List Char` buffers (the writer buffer is modelled as unbounded, i.e.
no automatic flush ever happens before `Finish`; this is the behaviour
of `bufio.Writer` for documents smaller than its internal buffer).
Character-encoding transcoding (`golang.org/x/text`) is identity for
the UTF-8 default and is omitted, as are the reflection-based
marshaler/unmarshaler layers.

Loops of the Go code are embedded as fuel-indexed structural
recursions; every public entry point supplies `fuelOf s`, which is
proved sufficient for the states reachable from `NewScanner` (the
`view`/`Good` development below).  Scan errors are an inductive type
with one constructor per distinct `fmt.Errorf` site; the line/column
numbers embedded in Go error messages are tracked in the scanner state
(`lineNo`, `pos`) but not repeated inside the error values.
-/

namespace Csv

/-- Go: `const noRune = '\x00'` (csv.go). -/
def noRune : Char := '\x00'

/-- Go: `type rule struct` — the dialect configuration.  Fields follow the
variant of `rule` that `scanner.go` actually reads (`separator`, `prefix`,
`suffix`, `allowSingleQuote`, `allowEmptyField`, `omitLeadingSpace`,
`omitTrailingSpace`, `comment`, `omitEmptyLine`,
`allowEndingLineBreakInLastRecord`); the Go source file declaring this exact
struct is not in the snapshot, but every field and its default is attested by
the settings table of the repository README (`AllowSingleQuote` true,
`AllowEmptyField` true, `AllowEndingLineBreakInLastRecord` true,
`OmitLeadingSpace`/`OmitTrailingSpace` true, `OmitEmptyLine` true, `Comment`
unset, separator `,`) and by the `defaultRule` values of the `csv.go`
variants present.  `pfx`/`sfx` are the Go fields `prefix`/`suffix` (renamed
for Lean).  The `encoding`, `header` and `validators` fields are not used by
the scanning/generation algorithms embedded here and are omitted. -/
structure Rule where
  separator : Char
  pfx : Char
  sfx : Char
  allowSingleQuote : Bool
  allowEmptyField : Bool
  omitLeadingSpace : Bool
  omitTrailingSpace : Bool
  comment : Char
  omitEmptyLine : Bool
  allowEndingLineBreakInLastRecord : Bool
deriving DecidableEq

/-- Go: `var defaultRule = rule{...}` plus the README defaults table. -/
def defaultRule : Rule :=
  { separator := ','
    pfx := noRune
    sfx := noRune
    allowSingleQuote := true
    allowEmptyField := true
    omitLeadingSpace := true
    omitTrailingSpace := true
    comment := noRune
    omitEmptyLine := true
    allowEndingLineBreakInLastRecord := true }

/-- Go: `type Setting func(*rule)`. -/
def Setting : Type := Rule → Rule

/-- Go: `csv.Separator(sep)`. -/
def Separator (sep : Char) : Setting := fun r => { r with separator := sep }

/-- Go: `csv.Prefix(prefix)`. -/
def SetPfx (p : Char) : Setting := fun r => { r with pfx := p }

/-- Go: `csv.Suffix(suffix)`. -/
def SetSfx (p : Char) : Setting := fun r => { r with sfx := p }

/-- Go: `csv.AllowSingleQuote(v)`. -/
def AllowSingleQuote (v : Bool) : Setting := fun r => { r with allowSingleQuote := v }

/-- Go: `csv.AllowEmptyField(v)`. -/
def AllowEmptyField (v : Bool) : Setting := fun r => { r with allowEmptyField := v }

/-- Go: `csv.OmitLeadingSpace(v)`. -/
def OmitLeadingSpace (v : Bool) : Setting := fun r => { r with omitLeadingSpace := v }

/-- Go: `csv.OmitTrailingSpace(v)`. -/
def OmitTrailingSpace (v : Bool) : Setting := fun r => { r with omitTrailingSpace := v }

/-- Go: `csv.Comment(comment)`. -/
def Comment (c : Char) : Setting := fun r => { r with comment := c }

/-- Go: `csv.OmitEmptyLine(v)` (README). -/
def OmitEmptyLine (v : Bool) : Setting := fun r => { r with omitEmptyLine := v }

/-- Go: `csv.AllowEndingLineBreakInLastRecord(v)` (README). -/
def AllowEndingLineBreakInLastRecord (v : Bool) : Setting :=
  fun r => { r with allowEndingLineBreakInLastRecord := v }

/-- Settings applied left to right over the default rule, as in the
`for _, setting := range settings { setting(&s.rule) }` loops of
`NewScanner`/`NewGenerator`. -/
def mkRule (settings : List Setting) : Rule :=
  settings.foldl (fun r f => f r) defaultRule

/-- Go: `Scanner.isQuote` (scanner.go): `"` always, `'` iff `allowSingleQuote`. -/
def Rule.isQuote (r : Rule) (c : Char) : Bool :=
  c = '"' || (r.allowSingleQuote && c = '\'')

/-- Go: `Scanner.isComma` (scanner.go). -/
def Rule.isComma (r : Rule) (c : Char) : Bool := c = r.separator

/-- Go: `Scanner.isLineEnd` (scanner.go). -/
def isLineEnd (c : Char) : Bool := c = '\n'

/-- Go: `Scanner.isSpace` (scanner.go): `'\t', '\v', '\f', ' ', 0x85, 0xA0`. -/
def isSpace (c : Char) : Bool :=
  c = '\t' || c = Char.ofNat 11 || c = Char.ofNat 12 || c = ' ' ||
    c = Char.ofNat 0x85 || c = Char.ofNat 0xA0

/-- Go: `type Scanner struct` (scanner.go).  `input` models the unread part
of the `bufio.Reader`; `line`, `lineNo`, `pos`, `c`, `eof`, `lastLine` are
the fields of the Go struct. -/
structure Scanner where
  rule : Rule
  input : List Char
  line : List Char
  lineNo : Nat
  pos : Nat
  c : Char
  eof : Bool
  lastLine : Bool
deriving DecidableEq

/-- Go: `bufio.Reader.ReadString('\n')` over the remaining input: the line up
to and including the first `'\n'`, the rest, and whether EOF was hit (no
`'\n'` found before the end of input). -/
def takeLine : List Char → List Char × List Char × Bool
  | [] => ([], [], true)
  | c :: cs =>
    if c = '\n' then ([c], cs, false)
    else (c :: (takeLine cs).1, (takeLine cs).2.1, (takeLine cs).2.2)

/-- Go: `Scanner.readNextLine` (scanner.go): read one line; on `io.EOF` set
`lastLine` (it is never reset). -/
def readNextLine (s : Scanner) : Scanner :=
  let t := takeLine s.input
  { s with line := t.1, input := t.2.1, lastLine := s.lastLine || t.2.2 }

/-- Go: `Scanner.shouldOmitLine` (scanner.go): a physical line is discarded
if it is exactly `"\n"` and `omitEmptyLine` is set, or if comments are
configured and its first rune is the comment rune. -/
def shouldOmitLine (r : Rule) (line : List Char) : Bool :=
  (line = ['\n'] && r.omitEmptyLine) ||
    (r.comment ≠ noRune && line.length > 0 && line.headD noRune = r.comment)

/-- Go: the `for !s.lastLine && s.shouldOmitLine(s.line)` loop of
`Scanner.nextLine`.  Fuel-indexed; `nextLine` supplies `input.length + 2`,
which covers every iteration (each iteration either consumes at least one
input character or sets `lastLine`, which stops the loop). -/
def skipLoop : Nat → Scanner → Scanner
  | 0, s => s
  | fuel + 1, s =>
    if ¬ s.lastLine ∧ shouldOmitLine s.rule s.line then
      skipLoop fuel (readNextLine { s with lineNo := s.lineNo + 1 })
    else s

/-- Scan errors, one constructor per `fmt.Errorf` site of scanner.go.
`outOfFuel` is the value returned by a fuel-indexed loop at fuel 0; the
wrappers always supply sufficient fuel, so it never escapes for states
reachable from `NewScanner`. -/
inductive ScanErr where
  | unexpectedEmptyLine
  | emptyField
  | unexpectedQuote (c : Char)
  | expectSeparator (c : Char)
  | expectQuote (c : Char)
  | expectLineEnd (c : Char)
  | trailingQuoteNotFound
  | prefixNotFound
  | suffixNotFound
  | outOfFuel
deriving DecidableEq

/-- The tail of Go's `Scanner.nextLine` after the comment/empty-line loop:
reset `pos`, then either flag EOF (erroring when
`allowEndingLineBreakInLastRecord` is unset) or place the cursor on the
first rune of the new line. -/
def nextLineAfterSkip (s2 : Scanner) : Except ScanErr Scanner :=
  if s2.line.length = 0 ∧ s2.lastLine then
    if ¬ s2.rule.allowEndingLineBreakInLastRecord then .error .unexpectedEmptyLine
    else .ok { s2 with pos := 0, eof := true, c := noRune }
  else .ok { s2 with pos := 0, c := s2.line.headD noRune }

/-- Go: `Scanner.nextLine` (scanner.go): bump `lineNo`, read a line, run the
comment/empty-line loop (only while not on the last line), then
`nextLineAfterSkip`. -/
def nextLine (s0 : Scanner) : Except ScanErr Scanner :=
  nextLineAfterSkip
    (skipLoop ((readNextLine { s0 with lineNo := s0.lineNo + 1 }).input.length + 2)
      (readNextLine { s0 with lineNo := s0.lineNo + 1 }))

/-- Go: `Scanner.next` (scanner.go): advance within the current line, or read
the next line when the cursor is at the line's last rune (Go's
`s.pos >= len([]rune(s.line))-1` over ints is `pos + 1 ≥ length` over Nat). -/
def next (s : Scanner) : Except ScanErr Scanner :=
  if s.pos + 1 ≥ s.line.length then nextLine s
  else .ok { s with pos := s.pos + 1, c := s.line.getD (s.pos + 1) noRune }

/-- Go: `NewScanner` with the rule already built (the settings loop is
`mkRule`): initial cursor state followed by one `next`. -/
def NewScannerR (r : Rule) (data : List Char) : Except ScanErr Scanner :=
  next { rule := r, input := data, line := [], lineNo := 0, pos := 0,
         c := noRune, eof := false, lastLine := false }

/-- Go: `csv.NewScanner(data, settings...)` (scanner.go). -/
def NewScanner (data : List Char) (settings : List Setting) : Except ScanErr Scanner :=
  NewScannerR (mkRule settings) data

/-- Fuel supplied by every scanning wrapper: strictly more than the number of
runes still to be consumed from any state reachable from `NewScanner`. -/
def fuelOf (s : Scanner) : Nat := s.input.length + s.line.length + 1

/-- Go: `Scanner.scanSPACE` (scanner.go): consume a maximal run of space
runes.  The Go function also returns the consumed spaces as a string, but
both call sites discard it, so the embedding returns only the scanner. -/
def scanSPACEGo : Nat → Scanner → Except ScanErr Scanner
  | 0, _ => .error .outOfFuel
  | fuel + 1, s =>
    if ¬ s.eof ∧ isSpace s.c then
      match next s with
      | .error e => .error e
      | .ok s2 => scanSPACEGo fuel s2
    else .ok s

/-- Wrapper supplying fuel for `scanSPACEGo`. -/
def scanSPACE (s : Scanner) : Except ScanErr Scanner := scanSPACEGo (fuelOf s) s

/-- Go: `Scanner.scanQUOTE` (scanner.go): the current rune must be a quote;
it is returned and consumed. -/
def scanQUOTE (s : Scanner) : Except ScanErr (Char × Scanner) :=
  if ¬ s.rule.isQuote s.c then .error (.expectQuote s.c)
  else
    match next s with
    | .error e => .error e
    | .ok s2 => .ok (s.c, s2)

/-- Go: the `for !s.eof` loop of `Scanner.scanEscaped` (scanner.go).
`leading` is `leadingQuote`, `acc` is `escaped`, `found` is
`foundFirstQuote`.  Branches mirror the Go control flow exactly:
a quote different from the leading quote is literal text (or closes the
field if a closing quote is pending); the leading quote either sets the
pending flag or, if pending, emits one literal quote; any other rune is
literal text (or closes the field if pending). -/
def scanEscapedGo : Nat → Char → List Char → Bool → Scanner →
    Except ScanErr (List Char × Scanner)
  | 0, _, _, _, _ => .error .outOfFuel
  | fuel + 1, leading, acc, found, s =>
    if s.eof then
      if found then .ok (acc, s) else .error .trailingQuoteNotFound
    else if s.rule.isQuote s.c then
      if s.c ≠ leading then
        if found then .ok (acc, s)
        else
          match next s with
          | .error e => .error e
          | .ok s2 => scanEscapedGo fuel leading (acc ++ [s.c]) false s2
      else if ¬ found then
        match next s with
        | .error e => .error e
        | .ok s2 => scanEscapedGo fuel leading acc true s2
      else
        match next s with
        | .error e => .error e
        | .ok s2 => scanEscapedGo fuel leading (acc ++ [s.c]) false s2
    else
      if found then .ok (acc, s)
      else
        match next s with
        | .error e => .error e
        | .ok s2 => scanEscapedGo fuel leading (acc ++ [s.c]) false s2

/-- Go: `Scanner.scanEscaped` (scanner.go): scan the leading quote, then run
the escaped-field loop. -/
def scanEscaped (s : Scanner) : Except ScanErr (List Char × Scanner) :=
  match scanQUOTE s with
  | .error e => .error e
  | .ok (q, s1) => scanEscapedGo (fuelOf s1) q [] false s1

/-- Go: the accumulation loop of `Scanner.scanNonEscaped` (scanner.go):
consume until EOF, line end, separator, or the configured suffix rune. -/
def scanNonEscapedGo : Nat → List Char → Scanner → Except ScanErr (List Char × Scanner)
  | 0, _, _ => .error .outOfFuel
  | fuel + 1, acc, s =>
    if ¬ s.eof ∧ ¬ isLineEnd s.c ∧ ¬ s.rule.isComma s.c ∧
        (s.rule.sfx = noRune ∨ s.c ≠ s.rule.sfx) then
      match next s with
      | .error e => .error e
      | .ok s2 => scanNonEscapedGo fuel (acc ++ [s.c]) s2
    else .ok (acc, s)

/-- Go: `Scanner.scanNonEscaped` (scanner.go): reject a disallowed empty
field, reject a quote as the first rune, accumulate the field body, then
require the configured suffix if any. -/
def scanNonEscaped (s : Scanner) : Except ScanErr (List Char × Scanner) :=
  if (s.rule.isComma s.c || isLineEnd s.c || s.eof) && ! s.rule.allowEmptyField then
    .error .emptyField
  else if s.rule.isQuote s.c then .error (.unexpectedQuote s.c)
  else
    match scanNonEscapedGo (fuelOf s) [] s with
    | .error e => .error e
    | .ok (acc, s2) =>
      if s.rule.sfx ≠ noRune then
        if s2.c ≠ s.rule.sfx then .error .suffixNotFound
        else
          match next s2 with
          | .error e => .error e
          | .ok s3 => .ok (acc, s3)
      else .ok (acc, s2)

/-- Go: `strings.TrimRightFunc(field, s.isSpace)`. -/
def trimRightSpace (l : List Char) : List Char :=
  (l.reverse.dropWhile isSpace).reverse

/-- Go: `Scanner.scanField` (scanner.go): optional leading-space skip,
optional prefix rune, dispatch on a quote to the escaped/non-escaped mode
(the escaped branch also checks the configured suffix), then optional
trailing-space trim of the field text plus trailing-space skip in the
stream. -/
def scanField (s0 : Scanner) : Except ScanErr (List Char × Scanner) :=
  let step1 : Except ScanErr Scanner :=
    if s0.rule.omitLeadingSpace then scanSPACE s0 else .ok s0
  match step1 with
  | .error e => .error e
  | .ok s1 =>
    let step2 : Except ScanErr Scanner :=
      if s1.rule.pfx ≠ noRune then
        if s1.c = s1.rule.pfx then next s1 else .error .prefixNotFound
      else .ok s1
    match step2 with
    | .error e => .error e
    | .ok s2 =>
      let step3 : Except ScanErr (List Char × Scanner) :=
        if s2.rule.isQuote s2.c then
          match scanEscaped s2 with
          | .error e => .error e
          | .ok (f, s3) =>
            if s3.rule.sfx ≠ noRune then
              if s3.c ≠ s3.rule.sfx then .error .suffixNotFound
              else
                match next s3 with
                | .error e => .error e
                | .ok s4 => .ok (f, s4)
            else .ok (f, s3)
        else scanNonEscaped s2
      match step3 with
      | .error e => .error e
      | .ok (f, s4) =>
        if s4.rule.omitTrailingSpace then
          match scanSPACE s4 with
          | .error e => .error e
          | .ok s5 => .ok (trimRightSpace f, s5)
        else .ok (f, s4)

/-- Go: `Scanner.scanCOMMA` (scanner.go): the current rune must be the
separator; it is consumed. -/
def scanCOMMA (s : Scanner) : Except ScanErr (Char × Scanner) :=
  if s.c ≠ s.rule.separator then .error (.expectSeparator s.c)
  else
    match next s with
    | .error e => .error e
    | .ok s2 => .ok (s.c, s2)

/-- Go: the `for !s.eof && !s.isLineEnd(s.c)` loop of `Scanner.scanRecord`
(scanner.go): separator then field, repeatedly. -/
def scanRecordGo : Nat → List (List Char) → Scanner →
    Except ScanErr (List (List Char) × Scanner)
  | 0, _, _ => .error .outOfFuel
  | fuel + 1, fields, s =>
    if ¬ s.eof ∧ ¬ isLineEnd s.c then
      match scanCOMMA s with
      | .error e => .error e
      | .ok (_, s1) =>
        match scanField s1 with
        | .error e => .error e
        | .ok (f, s2) => scanRecordGo fuel (fields ++ [f]) s2
    else .ok (fields, s)

/-- Go: `Scanner.scanRecord` (scanner.go): one field, then the
separator-field loop, then `nextLine` past the record's line end. -/
def scanRecord (s : Scanner) : Except ScanErr (List (List Char) × Scanner) :=
  match scanField s with
  | .error e => .error e
  | .ok (f, s1) =>
    match scanRecordGo (fuelOf s1) [f] s1 with
    | .error e => .error e
    | .ok (fields, s2) =>
      match nextLine s2 with
      | .error e => .error e
      | .ok s3 => .ok (fields, s3)

/-- The `error` results of Go's `Scanner.Scan`: `io.EOF`, or a scanning
error (Go wraps it with the line/position held in the scanner state). -/
inductive GoErr where
  | ioEOF
  | failed (e : ScanErr)
deriving DecidableEq

/-- Go: `Scanner.Scan` (scanner.go): `(nil, io.EOF)` once the end of input
has been reached; otherwise one record, with `io.EOF` filled in alongside
the row when that record consumed the rest of the input.  On a scan error
the row is `nil` (the Go scanner state is unusable afterwards; the
pre-call state is returned here). -/
def Scan (s : Scanner) : Option (List (List Char)) × Option GoErr × Scanner :=
  if s.eof then (none, some .ioEOF, s)
  else
    match scanRecord s with
    | .error e => (none, some (.failed e), s)
    | .ok (row, s2) => (some row, if s2.eof then some .ioEOF else none, s2)

/-- Go: the `for !s.eof` loop of `Scanner.ScanAll` (scanner.go). -/
def ScanAllGo : Nat → List (List (List Char)) → Scanner →
    Except ScanErr (List (List (List Char)) × Scanner)
  | 0, _, _ => .error .outOfFuel
  | fuel + 1, rows, s =>
    if ¬ s.eof then
      match scanRecord s with
      | .error e => .error e
      | .ok (row, s2) => ScanAllGo fuel (rows ++ [row]) s2
    else .ok (rows, s)

/-- Go: `Scanner.ScanAll` (scanner.go). -/
def ScanAll (s : Scanner) : Except ScanErr (List (List (List Char)) × Scanner) :=
  ScanAllGo (fuelOf s) [] s

/-- `NewScanner` followed by `ScanAll`, under an explicit rule: the scanning
side of the round-trip law. -/
def scanAllData (r : Rule) (data : List Char) :
    Except ScanErr (List (List (List Char))) :=
  match NewScannerR r data with
  | .error e => .error e
  | .ok s =>
    match ScanAll s with
    | .error e => .error e
    | .ok (rows, _) => .ok rows

/-- Go: `strings.Replace(field, "\"", "\"\"", -1)` — double every `"`. -/
def escapeQuotes : List Char → List Char
  | [] => []
  | c :: cs => if c = '"' then '"' :: '"' :: escapeQuotes cs else c :: escapeQuotes cs

/-- Go: the quoting condition of `Generator.writeField` (generator.go):
`strings.ContainsAny(field, "\"\n") || strings.ContainsRune(field, separator)`. -/
def needQuote (r : Rule) (f : List Char) : Bool :=
  f.any (fun c => c = '"' || c = '\n') || f.any (fun c => c = r.separator)

/-- The prefix rune emitted around every field, if configured. -/
def pfxPart (r : Rule) : List Char := if r.pfx ≠ noRune then [r.pfx] else []

/-- The suffix rune emitted around every field, if configured. -/
def sfxPart (r : Rule) : List Char := if r.sfx ≠ noRune then [r.sfx] else []

/-- Go: `Generator.writeField` (generator.go): prefix, then either the field
verbatim or the field with doubled quotes wrapped in `"`, then suffix. -/
def fieldText (r : Rule) (f : List Char) : List Char :=
  pfxPart r ++
    (if needQuote r f then '"' :: (escapeQuotes f ++ ['"']) else f) ++
    sfxPart r

/-- Elements joined with a separator list between consecutive elements:
`Generator.writeRecord` writes each field followed by the separator except
after the last. -/
def joinSep (sep : List Char) : List (List Char) → List Char
  | [] => []
  | [x] => x
  | x :: y :: xs => x ++ sep ++ joinSep sep (y :: xs)

/-- The bytes `Generator.writeRecord` emits for one record. -/
def recordText (r : Rule) (rec : List (List Char)) : List Char :=
  joinSep [r.separator] (rec.map (fieldText r))

/-- Go: `type Generator struct` (generator.go).  `buf` is the
`bytes.Buffer`, `w` the `bufio.Writer` buffer (`w.Buffered()` is
`w.length`), `finished` the seal flag. -/
structure Generator where
  rule : Rule
  buf : List Char
  w : List Char
  finished : Bool
deriving DecidableEq

/-- The error of Go's `Write`/`WriteAll` after `Finish`:
`csv: Generator has been finished`. -/
inductive GenErr where
  | finishedGen
deriving DecidableEq

/-- Go: `csv.NewGenerator(settings...)` (generator.go).  Note the Go
constructor returns no error: no validation happens at construction. -/
def NewGenerator (settings : List Setting) : Generator :=
  { rule := mkRule settings, buf := [], w := [], finished := false }

/-- Go: `Generator.writeRecord` (generator.go): a line terminator first iff
the writer buffer is non-empty, then the record's fields. -/
def writeRecord (g : Generator) (rec : List (List Char)) : Generator :=
  { g with
    w := g.w ++ (if g.w.length > 0 then ['\n'] else []) ++ recordText g.rule rec }

/-- Go: `Generator.Write` (generator.go): fails (leaving the generator
unchanged) once `finished` is set. -/
def Write (g : Generator) (rec : List (List Char)) : Option GenErr × Generator :=
  if g.finished then (some .finishedGen, g) else (none, writeRecord g rec)

/-- The record loop of Go's `Generator.WriteAll`. -/
def writeRecords (g : Generator) (rows : List (List (List Char))) : Generator :=
  rows.foldl writeRecord g

/-- Go: `Generator.WriteAll` (generator.go): fails (leaving the generator
unchanged) once `finished` is set; otherwise writes every record (the
in-memory record writes cannot fail). -/
def WriteAll (g : Generator) (rows : List (List (List Char))) :
    Option GenErr × Generator :=
  if g.finished then (some .finishedGen, g) else (none, writeRecords g rows)

/-- Go: `Generator.Finish` (generator.go): set `finished`, flush the writer
buffer into the byte buffer, and drain the byte buffer (`ioutil.ReadAll`)
as the returned document.  In-memory flush and read cannot fail. -/
def Finish (g : Generator) : List Char × Generator :=
  (g.buf ++ g.w, { g with finished := true, buf := [], w := [] })

/-- `NewGenerator`-equivalent state under an explicit rule, `WriteAll`, then
`Finish`: the generation side of the round-trip law. -/
def generateData (r : Rule) (rows : List (List (List Char))) : List Char :=
  (Finish (WriteAll { rule := r, buf := [], w := [], finished := false } rows).2).1

/-! ### Invariants of scanner states reachable from `NewScanner`

`view s` is the sequence of runes still to be delivered by the cursor
(current rune included); `Good s` says the cursor fields are consistent
with the line structure produced by `takeLine`.  Under a configuration
with comments and empty-line omission disabled (`StreamRule`), `next`
acts on `view` as `List.tail` — the key normalization for the
round-trip proof. -/

/-- The runes from the cursor (inclusive) to the end of input. -/
def view (s : Scanner) : List Char :=
  if s.eof then [] else s.c :: (s.line.drop (s.pos + 1) ++ s.input)

/-- A line as produced by `takeLine`: `'\n'` occurs only as its last rune. -/
def lineWF : List Char → Prop
  | [] => True
  | c :: cs => (cs = [] ∨ c ≠ '\n') ∧ lineWF cs

/-- Cursor-state consistency for scanner states reachable from `NewScanner`. -/
def Good (s : Scanner) : Prop :=
  (s.eof = true → s.c = noRune ∧ s.input = [] ∧ s.line = []) ∧
  (s.eof = false → s.pos < s.line.length ∧ s.c = s.line.getD s.pos noRune ∧ lineWF s.line)

/-- `Good` plus a fixed rule (every scanner operation preserves the rule). -/
def GoodR (r : Rule) (s : Scanner) : Prop := s.rule = r ∧ Good s

/-- Configurations under which `nextLine` never discards a line and never
errors: comments off, empty-line omission off, ending line break allowed. -/
structure StreamRule (r : Rule) : Prop where
  noComment : r.comment = noRune
  noOmitEmpty : r.omitEmptyLine = false
  endingOk : r.allowEndingLineBreakInLastRecord = true

/-- The configuration family for the amended round-trip law: whitespace
trimming disabled (the claim's own hypothesis), plus: single quotes
disabled, empty fields allowed, no prefix/suffix, a separator distinct from
the double quote and the line terminator, and a `StreamRule` tail
(comments off, empty-line omission off, ending line break tolerated). -/
structure RTRule (r : Rule) : Prop where
  noLead : r.omitLeadingSpace = false
  noTrail : r.omitTrailingSpace = false
  noSingleQuote : r.allowSingleQuote = false
  emptyOk : r.allowEmptyField = true
  noPfx : r.pfx = noRune
  noSfx : r.sfx = noRune
  sepNotQuote : r.separator ≠ '"'
  sepNotNl : r.separator ≠ '\n'
  stream : StreamRule r

/-- Stop condition after a field body: nothing follows, or a separator or a
line end follows. -/
def StopF (r : Rule) (rest : List Char) : Prop :=
  rest = [] ∨ (∃ t, rest = r.separator :: t) ∨ (∃ t, rest = '\n' :: t)

/-- Stop condition after a quoted field's closing quote: nothing follows, or
the next rune is not the (double) quote. -/
def StopQ (rest : List Char) : Prop :=
  rest = [] ∨ ∃ c t, rest = c :: t ∧ c ≠ '"'

/-- The elements after the head of a `joinSep`, each preceded by the
separator. -/
def tailJoin (sep : List Char) (xs : List (List Char)) : List Char :=
  (xs.map (fun y => sep ++ y)).join

/-- The full document text the generator produces: record texts joined by
line terminators (proved below in `generateData_eq_docText`). -/
def docText (r : Rule) (rows : List (List (List Char))) : List Char :=
  joinSep ['\n'] (rows.map (recordText r))

/-- The dialect of the C1 counterexample and witness: the default dialect
with whitespace trimming disabled (exactly the family quantified over by
the claim). -/
def c1cfg : Rule := mkRule [OmitLeadingSpace false, OmitTrailingSpace false]

/-- The dialect of the C1 witness: trimming disabled plus the restrictions
of the amended claim. -/
def c1wcfg : Rule := mkRule [OmitLeadingSpace false, OmitTrailingSpace false,
  AllowSingleQuote false, OmitEmptyLine false]

/-- Witness rows for C1: fields with embedded separators, quotes and line
terminators, plus an empty field. -/
def c1rows : List (List (List Char)) :=
  [[['a', ',', 'b'], ['c', '"', 'd', '\n', 'e']], [[], ['x', '\'', 'y']]]

/-- Whether an `Except`-valued scanner-construction result is a success. -/
def isOkScan (x : Except ScanErr Scanner) : Bool :=
  match x with
  | .ok _ => true
  | .error _ => false

/-- The scanner state produced by `NewScanner` on the one-record document
`a` (used by the C9 witness). -/
def c9s : Scanner :=
  { rule := defaultRule, input := [], line := ['a'], lineNo := 1, pos := 0, c := 'a', eof := false, lastLine := true }

/-- The scanner state after scanning the final record of `a` (used by the
C9 witness). -/
def c9sF : Scanner :=
  { rule := defaultRule, input := [], line := [], lineNo := 3, pos := 0, c := noRune, eof := true, lastLine := true }

/-- Whether a scanning result is the unquoted-mode "unexpected quote"
error (the error of `scanNonEscaped`'s quote-initial branch). -/
def isUnexpectedQuoteErr {α : Type} : Except ScanErr α → Bool
  | .error (.unexpectedQuote _) => true
  | _ => false

theorem takeLine_append : ∀ l : List Char, (takeLine l).1 ++ (takeLine l).2.1 = l
  | [] => rfl
  | c :: cs => by
    by_cases hc : c = '\n'
    · simp [takeLine, hc]
    · simp [takeLine, hc, takeLine_append cs]

theorem takeLine_ne_nil {l : List Char} (h : l ≠ []) : (takeLine l).1 ≠ [] := by
  cases l with
  | nil => exact absurd rfl h
  | cons c cs =>
    by_cases hc : c = '\n' <;> simp [takeLine, hc]

theorem takeLine_nil_of_nil {l : List Char} (h : (takeLine l).1 = []) : l = [] := by
  cases l with
  | nil => rfl
  | cons c cs => exact absurd h (takeLine_ne_nil (by simp))

theorem takeLine_lineWF : ∀ l : List Char, lineWF (takeLine l).1
  | [] => trivial
  | c :: cs => by
    by_cases hc : c = '\n'
    · simp [takeLine, hc, lineWF]
    · have ih := takeLine_lineWF cs
      simp only [takeLine, if_neg hc]
      exact ⟨Or.inr hc, ih⟩

theorem takeLine_eof_nil : ∀ {l : List Char}, l = [] → takeLine l = ([], [], true)
  | _, rfl => rfl

theorem readNextLine_eof (s : Scanner) : (readNextLine s).eof = s.eof := rfl

theorem readNextLine_rule (s : Scanner) : (readNextLine s).rule = s.rule := rfl

theorem readNextLine_line (s : Scanner) :
    (readNextLine s).line = (takeLine s.input).1 := rfl

theorem readNextLine_input (s : Scanner) :
    (readNextLine s).input = (takeLine s.input).2.1 := rfl

theorem lineWF_getD : ∀ {l : List Char}, lineWF l → ∀ {i : Nat},
    i + 1 < l.length → l.getD i noRune ≠ '\n' := by
  intro l
  induction l with
  | nil => intro _ i h; simp at h
  | cons c cs ih =>
    intro hwf i h
    cases i with
    | zero =>
      rcases hwf.1 with hnil | hne
      · subst hnil; simp at h
      · simpa using hne
    | succ j =>
      simpa using ih hwf.2 (by simpa using h)

theorem view_ne_nil_of_not_eof {s : Scanner} (h : s.eof = false) : view s ≠ [] := by
  simp [view, h]

theorem view_not_eof {s : Scanner} (h : s.eof = false) :
    view s = s.c :: (s.line.drop (s.pos + 1) ++ s.input) := by
  simp [view, h]

theorem eof_of_view_nil {r : Rule} {s : Scanner} (hg : GoodR r s) (hv : view s = []) :
    s.eof = true ∧ s.c = noRune ∧ s.input = [] := by
  cases he : s.eof with
  | false => exact absurd hv (view_ne_nil_of_not_eof he)
  | true => exact ⟨rfl, (hg.2.1 he).1, (hg.2.1 he).2.1⟩

theorem shouldOmit_of_stream {r : Rule} (h : StreamRule r) (l : List Char) :
    shouldOmitLine r l = false := by
  simp [shouldOmitLine, h.noComment, h.noOmitEmpty]

theorem skipLoop_eq_self {s : Scanner}
    (h : shouldOmitLine s.rule s.line = false) (n : Nat) :
    skipLoop (n + 1) s = s := by
  simp [skipLoop, h]

theorem skipLoop_two {t : Scanner}
    (h : shouldOmitLine t.rule t.line = false) (n : Nat) :
    skipLoop (n + 2) t = t := by
  show skipLoop ((n + 1) + 1) t = t
  simp [skipLoop, h]

/-- `nextLine` under a `StreamRule` configuration: it returns `.ok`, the new
view is exactly the unread input (the rest of the current line is
abandoned), and the result is `Good`. -/
theorem nextLine_stream {r : Rule} {s : Scanner} (hr : StreamRule r)
    (hrule : s.rule = r) (hinp : s.eof = true → s.input = []) :
    ∃ s2, nextLine s = .ok s2 ∧ GoodR r s2 ∧ view s2 = s.input := by
  have hskip : skipLoop
      ((readNextLine { s with lineNo := s.lineNo + 1 }).input.length + 2)
      (readNextLine { s with lineNo := s.lineNo + 1 })
      = readNextLine { s with lineNo := s.lineNo + 1 } :=
    skipLoop_two (by
      show shouldOmitLine s.rule (takeLine s.input).1 = false
      rw [hrule]; exact shouldOmit_of_stream hr _) _
  have hgoal : nextLine s
      = nextLineAfterSkip (readNextLine { s with lineNo := s.lineNo + 1 }) := by
    rw [nextLine, hskip]
  cases hin : s.input with
  | nil =>
    have hl : (takeLine s.input).1 = [] := by rw [hin]; rfl
    have hlast : (readNextLine { s with lineNo := s.lineNo + 1 }).lastLine = true := by
      show (s.lastLine || (takeLine s.input).2.2) = true
      rw [hin]; simp [takeLine]
    refine ⟨{ (readNextLine { s with lineNo := s.lineNo + 1 }) with
        pos := 0
        eof := true
        c := noRune }, ?_, ?_, ?_⟩
    · rw [hgoal, nextLineAfterSkip,
        if_pos ⟨by simpa using congrArg List.length hl, hlast⟩,
        if_neg (by show ¬ ¬ s.rule.allowEndingLineBreakInLastRecord = true
                   rw [hrule, hr.endingOk]; simp)]
    · refine ⟨by simpa using hrule, fun _ => ⟨rfl, ?_, ?_⟩, fun h => by simp at h⟩
      · show (takeLine s.input).2.1 = []
        rw [hin]; rfl
      · exact hl
    · show view _ = []
      simp [view]
  | cons a as =>
    have hne : (takeLine s.input).1 ≠ [] := takeLine_ne_nil (by simp [hin])
    have heof : s.eof = false := by
      cases he : s.eof with
      | false => rfl
      | true => exact absurd (hinp he) (by simp [hin])
    have hcond : ¬ ((readNextLine { s with lineNo := s.lineNo + 1 }).line.length = 0 ∧
        (readNextLine { s with lineNo := s.lineNo + 1 }).lastLine = true) := by
      intro hcontra
      exact hne (List.length_eq_zero.mp hcontra.1)
    refine ⟨{ (readNextLine { s with lineNo := s.lineNo + 1 }) with
        pos := 0
        c := (readNextLine { s with lineNo := s.lineNo + 1 }).line.headD noRune },
      ?_, ?_, ?_⟩
    · rw [hgoal, nextLineAfterSkip, if_neg hcond]
    · refine ⟨by simpa using hrule, fun h => ?_, fun _ => ?_⟩
      · exact absurd h (by simp [readNextLine_eof, heof])
      · refine ⟨by simpa using List.length_pos.mpr hne, ?_,
          by simpa using takeLine_lineWF s.input⟩
        show (takeLine s.input).1.headD noRune = (takeLine s.input).1.getD 0 noRune
        cases hl : (takeLine s.input).1 with
        | nil => exact absurd hl hne
        | cons b bs => simp
    · cases hl : (takeLine s.input).1 with
      | nil => exact absurd hl hne
      | cons b bs =>
        have happ := takeLine_append s.input
        rw [hl] at happ
        refine (view_not_eof (by exact heof)).trans ?_
        show (takeLine s.input).1.headD noRune ::
          ((takeLine s.input).1.drop 1 ++ (takeLine s.input).2.1) = a :: as
        rw [hl, ← hin]
        simpa using happ

/-- `next` under a `StreamRule` configuration acts as `List.tail` on `view`. -/
theorem next_stream {r : Rule} {s : Scanner} (hr : StreamRule r)
    (hg : GoodR r s) (he : s.eof = false) :
    ∃ s2, next s = .ok s2 ∧ GoodR r s2 ∧ view s2 = (view s).tail := by
  have hgd := hg.2.2 he
  by_cases hcross : s.pos + 1 ≥ s.line.length
  · have hdrop : s.line.drop (s.pos + 1) = [] := List.drop_eq_nil_of_le hcross
    obtain ⟨s2, h1, h2, h3⟩ := nextLine_stream hr hg.1 (fun h => by rw [he] at h; cases h)
    exact ⟨s2, by rw [next, if_pos hcross]; exact h1, h2,
      by rw [h3]; simp [view, he, hdrop]⟩
  · push_neg at hcross
    refine ⟨_, by rw [next, if_neg (by omega)], ⟨by simpa using hg.1, ?_, ?_⟩, ?_⟩
    · intro h; rw [he] at h; cases h
    · intro _
      exact ⟨by simpa using hcross, rfl, by simpa using hgd.2.2⟩
    · have hdrop := List.drop_eq_getElem_cons (l := s.line) (n := s.pos + 1) hcross
      have hgetD := List.getD_eq_getElem (l := s.line) (d := noRune) hcross
      rw [view_not_eof he, List.tail_cons,
        view_not_eof (s := { s with
          pos := s.pos + 1
          c := s.line.getD (s.pos + 1) noRune }) he]
      show s.line.getD (s.pos + 1) noRune :: (s.line.drop (s.pos + 1 + 1) ++ s.input)
        = s.line.drop (s.pos + 1) ++ s.input
      rw [hgetD, hdrop, List.cons_append]

/-- One consuming step, packaged: a nonempty view forces `¬eof`, identifies
the cursor rune, and `next` succeeds with the view's tail. -/
theorem step_view {r : Rule} {s : Scanner} {a : Char} {t : List Char}
    (hr : StreamRule r) (hg : GoodR r s) (hv : view s = a :: t) :
    s.eof = false ∧ s.c = a ∧
      ∃ s2, next s = .ok s2 ∧ GoodR r s2 ∧ view s2 = t := by
  have he : s.eof = false := by
    cases heq : s.eof with
    | false => rfl
    | true => rw [view, heq] at hv; simp at hv
  have hc : s.c = a := by
    rw [view, he] at hv
    simpa using congrArg (fun l => l.headD noRune) hv
  obtain ⟨s2, h1, h2, h3⟩ := next_stream hr hg he
  exact ⟨he, hc, s2, h1, h2, by rw [h3, hv, List.tail_cons]⟩

/-- The head fact of a nonempty view: the scanner is not at EOF and the
cursor rune is the head. -/
theorem view_head {s : Scanner} {a : Char} {t : List Char}
    (hv : view s = a :: t) : s.eof = false ∧ s.c = a := by
  have he : s.eof = false := by
    cases heq : s.eof with
    | false => rfl
    | true => rw [view, heq] at hv; simp at hv
  refine ⟨he, ?_⟩
  rw [view, he] at hv
  simpa using congrArg (fun l => l.headD noRune) hv

theorem isQuote_rt {r : Rule} (hr : RTRule r) (c : Char) :
    r.isQuote c = decide (c = '"') := by
  simp [Rule.isQuote, hr.noSingleQuote]

theorem isQuote_rt_false {r : Rule} (hr : RTRule r) {c : Char} (h : c ≠ '"') :
    r.isQuote c = false := by
  simp [isQuote_rt hr, h]

theorem view_lt_fuelOf {r : Rule} {s : Scanner} (hg : GoodR r s) :
    (view s).length < fuelOf s := by
  cases he : s.eof with
  | true => simp [view, he, fuelOf]
  | false =>
    have hgd := hg.2.2 he
    rw [view_not_eof he]
    simp only [List.length_cons, List.length_append, List.length_drop, fuelOf]
    omega

/-- `NewScannerR` under a `StreamRule` configuration: construction succeeds
and the initial view is the whole document. -/
theorem newScanner_stream {r : Rule} (hr : StreamRule r) (data : List Char) :
    ∃ s, NewScannerR r data = .ok s ∧ GoodR r s ∧ view s = data := by
  obtain ⟨s2, h1, h2, h3⟩ := nextLine_stream
    (s := { rule := r, input := data, line := [], lineNo := 0,
            pos := 0, c := noRune, eof := false, lastLine := false })
    hr rfl (by intro h; cases h)
  exact ⟨s2, by rw [NewScannerR, next, if_pos (by simp)]; exact h1, h2, h3⟩

theorem scanNonEscapedGo_stream {r : Rule} (hr : RTRule r) :
    ∀ (f : List Char) (fuel : Nat) (acc rest : List Char) (s : Scanner),
    GoodR r s → view s = f ++ rest →
    (∀ c ∈ f, c ≠ '\n' ∧ c ≠ r.separator) → StopF r rest →
    (view s).length < fuel →
    ∃ s2, scanNonEscapedGo fuel acc s = .ok (acc ++ f, s2) ∧
      GoodR r s2 ∧ view s2 = rest := by
  intro f
  induction f with
  | nil =>
    intro fuel acc rest s hg hv _ hstop hfuel
    cases fuel with
    | zero => exact absurd hfuel (by omega)
    | succ fu =>
      rw [List.nil_append] at hv
      have hguard : ¬ (¬ s.eof = true ∧ ¬ isLineEnd s.c = true ∧
          ¬ s.rule.isComma s.c = true ∧
          (s.rule.sfx = noRune ∨ s.c ≠ s.rule.sfx)) := by
        rcases hstop with hnil | ⟨t, ht⟩ | ⟨t, ht⟩
        · have := eof_of_view_nil hg (hv.trans (by rw [hnil]))
          intro h; exact h.1 this.1
        · have := view_head (hv.trans (by rw [ht]))
          intro h
          exact h.2.2.1 (by simp [Rule.isComma, hg.1, this.2])
        · have := view_head (hv.trans (by rw [ht]))
          intro h
          exact h.2.1 (by simp [isLineEnd, this.2])
      refine ⟨s, ?_, hg, hv⟩
      rw [scanNonEscapedGo, if_neg hguard, List.append_nil]
  | cons a f' ih =>
    intro fuel acc rest s hg hv hf hstop hfuel
    cases fuel with
    | zero => exact absurd hfuel (by omega)
    | succ fu =>
      rw [List.cons_append] at hv
      obtain ⟨he, hc, s2, h1, h2, h3⟩ := step_view hr.stream hg hv
      have ha := hf a (by simp)
      have hguard : (¬ s.eof = true ∧ ¬ isLineEnd s.c = true ∧
          ¬ s.rule.isComma s.c = true ∧
          (s.rule.sfx = noRune ∨ s.c ≠ s.rule.sfx)) := by
        refine ⟨by simp [he], by simp [isLineEnd, hc, ha.1], ?_, ?_⟩
        · simp [Rule.isComma, hg.1, hc, ha.2]
        · exact Or.inl (by rw [hg.1, hr.noSfx])
      have hlen : (view s2).length < fu := by
        have : (view s).length = (view s2).length + 1 := by
          rw [hv, h3]; simp
        omega
      obtain ⟨s3, hh1, hh2, hh3⟩ := ih fu (acc ++ [a]) rest s2 h2 h3
        (fun c hcm => hf c (by simp [hcm])) hstop hlen
      refine ⟨s3, ?_, hh2, hh3⟩
      rw [scanNonEscapedGo, if_pos hguard, h1, hc]
      simpa [List.append_assoc] using hh1

/-- At the start of an unquoted field's text (the field has no quote
characters), the cursor is not on a quote. -/
theorem head_not_quote_stream {r : Rule} (hr : RTRule r)
    {f rest : List Char} {s : Scanner} (hg : GoodR r s)
    (hv : view s = f ++ rest)
    (hf : ∀ c ∈ f, c ≠ '"' ∧ c ≠ '\n' ∧ c ≠ r.separator)
    (hstop : StopF r rest) : s.rule.isQuote s.c = false := by
  rw [hg.1]
  cases f with
  | cons a f' =>
    have := view_head (by rw [hv]; rfl)
    exact isQuote_rt_false hr (by rw [this.2]; exact (hf a (by simp)).1)
  | nil =>
    rw [List.nil_append] at hv
    rcases hstop with hnil | ⟨t, ht⟩ | ⟨t, ht⟩
    · have := eof_of_view_nil hg (hv.trans (by rw [hnil]))
      exact isQuote_rt_false hr (by rw [this.2.1]; intro h; exact absurd h (by decide))
    · have := view_head (hv.trans (by rw [ht]))
      exact isQuote_rt_false hr (by rw [this.2]; exact hr.sepNotQuote)
    · have := view_head (hv.trans (by rw [ht]))
      exact isQuote_rt_false hr (by rw [this.2]; intro h; exact absurd h (by decide))

/-- `scanNonEscaped` on a field with no quote, separator, or line-end
characters, under an `RTRule` configuration. -/
theorem scanNonEscaped_stream {r : Rule} (hr : RTRule r)
    {f rest : List Char} {s : Scanner}
    (hg : GoodR r s) (hv : view s = f ++ rest)
    (hf : ∀ c ∈ f, c ≠ '"' ∧ c ≠ '\n' ∧ c ≠ r.separator)
    (hstop : StopF r rest) :
    ∃ s2, scanNonEscaped s = .ok (f, s2) ∧ GoodR r s2 ∧ view s2 = rest := by
  have hemp : ((s.rule.isComma s.c || isLineEnd s.c || s.eof) &&
      ! s.rule.allowEmptyField) = false := by
    simp [hg.1, hr.emptyOk]
  have hcq : s.rule.isQuote s.c = false := head_not_quote_stream hr hg hv hf hstop
  obtain ⟨s2, h1, h2, h3⟩ := scanNonEscapedGo_stream hr f (fuelOf s) [] rest s hg hv
    (fun c hcm => ⟨(hf c hcm).2.1, (hf c hcm).2.2⟩) hstop (view_lt_fuelOf hg)
  refine ⟨s2, ?_, h2, h3⟩
  rw [scanNonEscaped, if_neg (by simp [hemp]), if_neg (by simp [hcq]), h1]
  simp [hg.1, hr.noSfx]

theorem escapeQuotes_cons_quote (f : List Char) :
    escapeQuotes ('"' :: f) = '"' :: '"' :: escapeQuotes f := by
  simp [escapeQuotes]

theorem escapeQuotes_cons {a : Char} (f : List Char) (h : a ≠ '"') :
    escapeQuotes (a :: f) = a :: escapeQuotes f := by
  simp [escapeQuotes, h]

theorem scanEscapedGo_stream {r : Rule} (hr : RTRule r) :
    ∀ (f : List Char) (fuel : Nat) (acc rest : List Char) (s : Scanner),
    GoodR r s → view s = escapeQuotes f ++ '"' :: rest → StopQ rest →
    (view s).length < fuel →
    ∃ s2, scanEscapedGo fuel '"' acc false s = .ok (acc ++ f, s2) ∧
      GoodR r s2 ∧ view s2 = rest := by
  intro f
  induction f with
  | nil =>
    intro fuel acc rest s hg hv hstop hfuel
    rw [show escapeQuotes [] ++ '"' :: rest = '"' :: rest from rfl] at hv
    obtain ⟨he, hc, s2, h1, h2, h3⟩ := step_view hr.stream hg hv
    cases fuel with
    | zero => exact absurd hfuel (by omega)
    | succ fu =>
      have hq : s.rule.isQuote s.c = true := by
        rw [hg.1, hc]; simp [isQuote_rt hr]
      have hlen2 : (view s2).length < fu := by
        have : (view s).length = (view s2).length + 1 := by rw [hv, h3]; simp
        omega
      have hstep : scanEscapedGo (fu + 1) '"' acc false s
          = scanEscapedGo fu '"' acc true s2 := by
        rw [scanEscapedGo, if_neg (by simp [he]), if_pos (by simp [hq]),
          if_neg (by simp [hc]), if_pos (by simp), h1]
      rcases hstop with hnil | ⟨c, t, hct, hcq⟩
      · subst hnil
        have hend := eof_of_view_nil h2 h3
        cases fu with
        | zero => exact absurd hlen2 (by omega)
        | succ fu2 =>
          refine ⟨s2, ?_, h2, h3⟩
          rw [hstep, scanEscapedGo, if_pos hend.1, if_pos rfl, List.append_nil]
      · have hhead := view_head (by rw [h3, hct])
        cases fu with
        | zero => exact absurd hlen2 (by omega)
        | succ fu2 =>
          refine ⟨s2, ?_, h2, h3⟩
          rw [hstep, scanEscapedGo, if_neg (by simp [hhead.1]),
            if_neg (by rw [h2.1, hhead.2]; simp [isQuote_rt_false hr hcq]),
            if_pos rfl, List.append_nil]
  | cons a f' ih =>
    intro fuel acc rest s hg hv hstop hfuel
    by_cases haq : a = '"'
    · subst haq
      rw [escapeQuotes_cons_quote, List.cons_append, List.cons_append] at hv
      obtain ⟨he, hc, s2, h1, h2, h3⟩ := step_view hr.stream hg hv
      obtain ⟨he2, hc2, s3, h1b, h2b, h3b⟩ := step_view hr.stream h2 h3
      cases fuel with
      | zero => exact absurd hfuel (by omega)
      | succ fu =>
        have hq : s.rule.isQuote s.c = true := by
          rw [hg.1, hc]; simp [isQuote_rt hr]
        have hstep : scanEscapedGo (fu + 1) '"' acc false s
            = scanEscapedGo fu '"' acc true s2 := by
          rw [scanEscapedGo, if_neg (by simp [he]), if_pos (by simp [hq]),
            if_neg (by simp [hc]), if_pos (by simp), h1]
        have hlen2 : (view s2).length < fu := by
          have : (view s).length = (view s2).length + 1 := by rw [hv, h3]; simp
          omega
        cases fu with
        | zero => exact absurd hlen2 (by omega)
        | succ fu2 =>
          have hq2 : s2.rule.isQuote s2.c = true := by
            rw [h2.1, hc2]; simp [isQuote_rt hr]
          have hstep2 : scanEscapedGo (fu2 + 1) '"' acc true s2
              = scanEscapedGo fu2 '"' (acc ++ ['"']) false s3 := by
            rw [scanEscapedGo, if_neg (by simp [he2]), if_pos (by simp [hq2]),
              if_neg (by simp [hc2]), if_neg (by simp), h1b, hc2]
          have hlen3 : (view s3).length < fu2 := by
            have : (view s2).length = (view s3).length + 1 := by rw [h3, h3b]; simp
            omega
          obtain ⟨s4, hh1, hh2, hh3⟩ := ih fu2 (acc ++ ['"']) rest s3 h2b h3b hstop hlen3
          refine ⟨s4, ?_, hh2, hh3⟩
          rw [hstep, hstep2, hh1]
          simp
    · rw [escapeQuotes_cons f' haq, List.cons_append] at hv
      obtain ⟨he, hc, s2, h1, h2, h3⟩ := step_view hr.stream hg hv
      cases fuel with
      | zero => exact absurd hfuel (by omega)
      | succ fu =>
        have hqf : s.rule.isQuote s.c = false := by
          rw [hg.1, hc]; exact isQuote_rt_false hr haq
        have hlen2 : (view s2).length < fu := by
          have : (view s).length = (view s2).length + 1 := by rw [hv, h3]; simp
          omega
        obtain ⟨s3, hh1, hh2, hh3⟩ := ih fu (acc ++ [a]) rest s2 h2 h3 hstop hlen2
        refine ⟨s3, ?_, hh2, hh3⟩
        rw [scanEscapedGo, if_neg (by simp [he]), if_neg (by simp [hqf]),
          if_neg (by simp), h1, hc]
        simpa [List.append_assoc] using hh1

/-- `scanEscaped` on the generator's quoted text for a field, under an
`RTRule` configuration: it returns the unescaped field. -/
theorem scanEscaped_stream {r : Rule} (hr : RTRule r)
    {f rest : List Char} {s : Scanner} (hg : GoodR r s)
    (hv : view s = '"' :: (escapeQuotes f ++ '"' :: rest)) (hstop : StopQ rest) :
    ∃ s2, scanEscaped s = .ok (f, s2) ∧ GoodR r s2 ∧ view s2 = rest := by
  obtain ⟨he, hc, s1, h1, h2, h3⟩ := step_view hr.stream hg hv
  have hq : s.rule.isQuote s.c = true := by
    rw [hg.1, hc]; simp [isQuote_rt hr]
  obtain ⟨s2, hh1, hh2, hh3⟩ := scanEscapedGo_stream hr f (fuelOf s1) [] rest s1
    h2 h3 hstop (view_lt_fuelOf h2)
  refine ⟨s2, ?_, hh2, hh3⟩
  rw [scanEscaped, scanQUOTE, if_neg (by simp [hq]), h1, hc]
  simpa using hh1

theorem needQuote_eq_false_iff {r : Rule} {f : List Char} :
    needQuote r f = false ↔ ∀ c ∈ f, c ≠ '"' ∧ c ≠ '\n' ∧ c ≠ r.separator := by
  simp only [needQuote, Bool.or_eq_false_iff, List.any_eq_false,
    decide_eq_false_iff_not, Bool.or_eq_true, decide_eq_true_eq, not_or]
  constructor
  · intro h c hc
    exact ⟨(h.1 c hc).1, (h.1 c hc).2, h.2 c hc⟩
  · intro h
    exact ⟨fun c hc => ⟨(h c hc).1, (h c hc).2.1⟩, fun c hc => (h c hc).2.2⟩

theorem fieldText_rt {r : Rule} (hr : RTRule r) (f : List Char) :
    fieldText r f
      = (if needQuote r f then '"' :: (escapeQuotes f ++ ['"']) else f) := by
  simp [fieldText, pfxPart, sfxPart, hr.noPfx, hr.noSfx]

/-- `scanField` on the generator's text for a field, under an `RTRule`
configuration. -/
theorem scanField_stream {r : Rule} (hr : RTRule r)
    {f rest : List Char} {s : Scanner} (hg : GoodR r s)
    (hv : view s = fieldText r f ++ rest) (hstop : StopF r rest) :
    ∃ s2, scanField s = .ok (f, s2) ∧ GoodR r s2 ∧ view s2 = rest := by
  have hlead : s.rule.omitLeadingSpace = false := by rw [hg.1]; exact hr.noLead
  have htrail : s.rule.omitTrailingSpace = false := by rw [hg.1]; exact hr.noTrail
  have hpfx : s.rule.pfx = noRune := by rw [hg.1]; exact hr.noPfx
  cases hnq : needQuote r f with
  | true =>
    rw [fieldText_rt hr, hnq, if_pos rfl] at hv
    have hv2 : view s = '"' :: (escapeQuotes f ++ '"' :: rest) := by
      rw [hv]; simp
    have hstopq : StopQ rest := by
      rcases hstop with hnil | ⟨t, ht⟩ | ⟨t, ht⟩
      · exact Or.inl hnil
      · exact Or.inr ⟨_, _, ht, hr.sepNotQuote⟩
      · exact Or.inr ⟨_, _, ht, by decide⟩
    obtain ⟨s2, h1, h2, h3⟩ := scanEscaped_stream hr hg hv2 hstopq
    have hq : s.rule.isQuote s.c = true := by
      have := view_head hv2
      rw [hg.1, this.2]
      simp [isQuote_rt hr]
    refine ⟨s2, ?_, h2, h3⟩
    rw [scanField]
    simp [hlead, hpfx, hq, h1, h2.1, hr.noSfx, hr.noTrail, noRune]
  | false =>
    have hf : ∀ c ∈ f, c ≠ '"' ∧ c ≠ '\n' ∧ c ≠ r.separator :=
      needQuote_eq_false_iff.mp hnq
    rw [fieldText_rt hr, hnq, if_neg (by simp)] at hv
    obtain ⟨s2, h1, h2, h3⟩ := scanNonEscaped_stream hr hg hv hf hstop
    have hcq : s.rule.isQuote s.c = false := head_not_quote_stream hr hg hv hf hstop
    refine ⟨s2, ?_, h2, h3⟩
    rw [scanField]
    simp [hlead, hpfx, hcq, h1, h2.1, hr.noTrail, noRune]

theorem scanCOMMA_stream {r : Rule} (hr : RTRule r) {t : List Char} {s : Scanner}
    (hg : GoodR r s) (hv : view s = r.separator :: t) :
    ∃ s2, scanCOMMA s = .ok (r.separator, s2) ∧ GoodR r s2 ∧ view s2 = t := by
  obtain ⟨he, hc, s2, h1, h2, h3⟩ := step_view hr.stream hg hv
  refine ⟨s2, ?_, h2, h3⟩
  rw [scanCOMMA, if_neg (by rw [hg.1, hc]; simp), h1, hc]

theorem tailJoin_nil (sep : List Char) : tailJoin sep [] = [] := rfl

theorem tailJoin_cons (sep x : List Char) (xs : List (List Char)) :
    tailJoin sep (x :: xs) = sep ++ (x ++ tailJoin sep xs) := by
  simp [tailJoin]

theorem joinSep_cons (sep : List Char) :
    ∀ (x : List Char) (xs : List (List Char)),
    joinSep sep (x :: xs) = x ++ tailJoin sep xs
  | _, [] => by simp [joinSep, tailJoin]
  | x, y :: ys => by
    have ih := joinSep_cons sep y ys
    rw [joinSep, ih, tailJoin_cons]
    simp [List.append_assoc]

theorem recordText_cons (r : Rule) (f : List Char) (fs : List (List Char)) :
    recordText r (f :: fs)
      = fieldText r f ++ tailJoin [r.separator] (fs.map (fieldText r)) := by
  rw [recordText, List.map_cons, joinSep_cons]

theorem fieldText_ne_nil {r : Rule} {f : List Char} (hf : f ≠ []) :
    fieldText r f ≠ [] := by
  simp only [fieldText]
  cases hnq : needQuote r f <;> simp [hf]

theorem recordText_ne_nil {r : Rule} {rec : List (List Char)}
    (h1 : rec ≠ []) (h2 : rec ≠ [[]]) : recordText r rec ≠ [] := by
  cases rec with
  | nil => exact absurd rfl h1
  | cons f fs =>
    cases fs with
    | nil =>
      have hf : f ≠ [] := by
        intro h; exact h2 (by rw [h])
      show joinSep [r.separator] [fieldText r f] ≠ []
      rw [joinSep]
      exact fieldText_ne_nil hf
    | cons g gs =>
      show joinSep [r.separator] (fieldText r f :: fieldText r g
        :: gs.map (fieldText r)) ≠ []
      rw [joinSep]
      simp

/-- The separator-field loop of `scanRecord` on the generator's text for the
remaining fields of a record. -/
theorem scanRecordGo_stream {r : Rule} (hr : RTRule r) :
    ∀ (fs : List (List Char)) (fuel : Nat) (acc : List (List Char))
      (rest : List Char) (s : Scanner),
    GoodR r s → view s = tailJoin [r.separator] (fs.map (fieldText r)) ++ rest →
    (rest = [] ∨ ∃ t, rest = '\n' :: t) →
    (view s).length < fuel →
    ∃ s2, scanRecordGo fuel acc s = .ok (acc ++ fs, s2) ∧
      GoodR r s2 ∧ view s2 = rest := by
  intro fs
  induction fs with
  | nil =>
    intro fuel acc rest s hg hv hstop hfuel
    rw [List.map_nil, tailJoin_nil, List.nil_append] at hv
    cases fuel with
    | zero => exact absurd hfuel (by omega)
    | succ fu =>
      have hguard : ¬ (¬ s.eof = true ∧ ¬ isLineEnd s.c = true) := by
        rcases hstop with hnil | ⟨t, ht⟩
        · have := eof_of_view_nil hg (hv.trans (by rw [hnil]))
          intro h; exact h.1 this.1
        · have := view_head (hv.trans (by rw [ht]))
          intro h; exact h.2 (by simp [isLineEnd, this.2])
      refine ⟨s, ?_, hg, hv⟩
      rw [scanRecordGo, if_neg hguard, List.append_nil]
  | cons f fs' ih =>
    intro fuel acc rest s hg hv hstop hfuel
    rw [List.map_cons, tailJoin_cons] at hv
    have hv2 : view s = r.separator ::
        (fieldText r f ++ (tailJoin [r.separator] (fs'.map (fieldText r)) ++ rest)) := by
      rw [hv]; simp [List.append_assoc]
    obtain ⟨s1, hc1, hg1, hview1⟩ := scanCOMMA_stream hr hg hv2
    have hstopf : StopF r (tailJoin [r.separator] (fs'.map (fieldText r)) ++ rest) := by
      cases fs' with
      | cons g gs =>
        rw [List.map_cons, tailJoin_cons]
        exact Or.inr (Or.inl
          ⟨fieldText r g ++ tailJoin [r.separator] (gs.map (fieldText r)) ++ rest,
           by simp⟩)
      | nil =>
        rw [List.map_nil, tailJoin_nil, List.nil_append]
        rcases hstop with hnil | ⟨t, ht⟩
        · exact Or.inl hnil
        · exact Or.inr (Or.inr ⟨t, ht⟩)
    obtain ⟨s2, hf1, hg2, hview2⟩ := scanField_stream hr hg1 hview1 hstopf
    cases fuel with
    | zero => exact absurd hfuel (by omega)
    | succ fu =>
      have hguard : (¬ s.eof = true ∧ ¬ isLineEnd s.c = true) := by
        have := view_head hv2
        exact ⟨by simp [this.1], by simp [isLineEnd, this.2, hr.sepNotNl]⟩
      have hlen : (view s2).length < fu := by
        have h1 : (view s).length
            = (fieldText r f).length + (view s2).length + 1 := by
          rw [hv2, hview2]
          simp only [List.length_cons, List.length_append]
        omega
      obtain ⟨s3, hh1, hh2, hh3⟩ := ih fu (acc ++ [f]) rest s2 hg2 hview2 hstop hlen
      refine ⟨s3, ?_, hh2, hh3⟩
      rw [scanRecordGo, if_pos hguard, hc1]
      show (match scanField s1 with
        | Except.error e => Except.error e
        | Except.ok (f, s2) => scanRecordGo fu (acc ++ [f]) s2) = _
      rw [hf1]
      show scanRecordGo fu (acc ++ [f]) s2 = _
      rw [hh1]
      simp

/-- `scanRecord` on the generator's text for one record, under an `RTRule`
configuration: it returns the record's fields and consumes the following
line terminator (if any). -/
theorem scanRecord_stream {r : Rule} (hr : RTRule r)
    {rec : List (List Char)} {rest : List Char} {s : Scanner}
    (hrec : rec ≠ []) (hg : GoodR r s)
    (hv : view s = recordText r rec ++ rest)
    (hstop : rest = [] ∨ ∃ t, rest = '\n' :: t) :
    ∃ s3, scanRecord s = .ok (rec, s3) ∧ GoodR r s3 ∧ view s3 = rest.tail := by
  cases rec with
  | nil => exact absurd rfl hrec
  | cons f fs =>
    rw [recordText_cons, List.append_assoc] at hv
    have hstopf : StopF r (tailJoin [r.separator] (fs.map (fieldText r)) ++ rest) := by
      cases fs with
      | cons g gs =>
        rw [List.map_cons, tailJoin_cons]
        exact Or.inr (Or.inl
          ⟨fieldText r g ++ tailJoin [r.separator] (gs.map (fieldText r)) ++ rest,
           by simp⟩)
      | nil =>
        rw [List.map_nil, tailJoin_nil, List.nil_append]
        rcases hstop with hnil | ⟨t, ht⟩
        · exact Or.inl hnil
        · exact Or.inr (Or.inr ⟨t, ht⟩)
    obtain ⟨s1, hf1, hg1, hview1⟩ := scanField_stream hr hg hv hstopf
    obtain ⟨s2, hgo1, hg2, hview2⟩ := scanRecordGo_stream hr fs (fuelOf s1) [f] rest s1
      hg1 hview1 hstop (view_lt_fuelOf hg1)
    have hnl : ∃ s3, nextLine s2 = .ok s3 ∧ GoodR r s3 ∧ view s3 = rest.tail := by
      rcases hstop with hnil | ⟨t, ht⟩
      · subst hnil
        have hend := eof_of_view_nil hg2 hview2
        obtain ⟨s3, hn1, hn2, hn3⟩ := nextLine_stream hr.stream hg2.1
          (fun _ => hend.2.2)
        exact ⟨s3, hn1, hn2, by simp [hn3, hend.2.2]⟩
      · subst ht
        have hhead := view_head hview2
        have hgd := hg2.2.2 hhead.1
        have hpos : ¬ (s2.pos + 1 < s2.line.length) := by
          intro hlt
          exact lineWF_getD hgd.2.2 hlt (by rw [← hgd.2.1]; exact hhead.2)
        have hdrop : s2.line.drop (s2.pos + 1) = [] :=
          List.drop_eq_nil_of_le (Nat.le_of_not_lt hpos)
        have hinp : s2.input = t := by
          have h5 := (view_not_eof hhead.1).symm.trans hview2
          rw [hdrop, List.nil_append] at h5
          injection h5 with h5a h5b
        obtain ⟨s3, hn1, hn2, hn3⟩ := nextLine_stream hr.stream hg2.1
          (fun h => absurd h (by simp [hhead.1]))
        exact ⟨s3, hn1, hn2, by rw [hn3, hinp]; rfl⟩
    obtain ⟨s3, hn1, hn2, hn3⟩ := hnl
    refine ⟨s3, ?_, hn2, hn3⟩
    rw [scanRecord, hf1]
    show (match scanRecordGo (fuelOf s1) [f] s1 with
      | Except.error e => Except.error e
      | Except.ok (fields, s2) =>
        match nextLine s2 with
        | Except.error e => Except.error e
        | Except.ok s3 => Except.ok (fields, s3)) = _
    rw [hgo1]
    show (match nextLine s2 with
      | Except.error e => Except.error e
      | Except.ok s3 => Except.ok ([f] ++ fs, s3)) = _
    rw [hn1]
    show Except.ok ([f] ++ fs, s3) = Except.ok (f :: fs, s3)
    rfl

theorem docText_cons (r : Rule) (rec : List (List Char))
    (rows : List (List (List Char))) :
    docText r (rec :: rows)
      = recordText r rec ++ tailJoin ['\n'] (rows.map (recordText r)) := by
  rw [docText, List.map_cons, joinSep_cons]

/-- The `ScanAll` loop consumes a whole generated document record by
record, under an `RTRule` configuration. -/
theorem ScanAllGo_stream {r : Rule} (hr : RTRule r) :
    ∀ (rows : List (List (List Char))) (fuel : Nat)
      (acc : List (List (List Char))) (s : Scanner),
    (∀ rec ∈ rows, rec ≠ [] ∧ rec ≠ [[]]) →
    GoodR r s → view s = docText r rows →
    (view s).length < fuel →
    ∃ s2, ScanAllGo fuel acc s = .ok (acc ++ rows, s2) := by
  intro rows
  induction rows with
  | nil =>
    intro fuel acc s _ hg hv hfuel
    cases fuel with
    | zero => exact absurd hfuel (by omega)
    | succ fu =>
      have hend := eof_of_view_nil hg (by rw [hv]; rfl)
      refine ⟨s, ?_⟩
      rw [ScanAllGo, if_neg (by simp [hend.1]), List.append_nil]
  | cons rec rows' ih =>
    intro fuel acc s hrows hg hv hfuel
    rw [docText_cons] at hv
    have hrecnn := hrows rec (by simp)
    have hrtne := recordText_ne_nil (r := r) hrecnn.1 hrecnn.2
    have hstop : tailJoin ['\n'] (rows'.map (recordText r)) = [] ∨
        ∃ t, tailJoin ['\n'] (rows'.map (recordText r)) = '\n' :: t := by
      cases rows' with
      | nil => exact Or.inl rfl
      | cons x xs =>
        rw [List.map_cons, tailJoin_cons]
        exact Or.inr ⟨recordText r x ++ tailJoin ['\n'] (xs.map (recordText r)),
          by simp⟩
    obtain ⟨s2, hrec1, hg2, hview2⟩ := scanRecord_stream hr hrecnn.1 hg hv hstop
    have hview2d : view s2 = docText r rows' := by
      cases rows' with
      | nil => rw [hview2]; rfl
      | cons x xs =>
        rw [hview2, List.map_cons, tailJoin_cons, docText_cons]
        rfl
    have he : s.eof = false := by
      cases he2 : s.eof with
      | false => rfl
      | true =>
        have hvnil : view s = [] := by simp [view, he2]
        rw [hv] at hvnil
        exact absurd (List.append_eq_nil.mp hvnil).1 hrtne
    have hlen : (view s2).length + 1 ≤ (view s).length := by
      have hrl : 1 ≤ (recordText r rec).length := List.length_pos.mpr hrtne
      rw [hv, hview2d]
      cases rows' with
      | nil =>
        simp only [docText, List.map_nil, joinSep, tailJoin_nil,
          List.append_nil, List.length_nil]
        omega
      | cons x xs =>
        rw [docText_cons, List.map_cons, tailJoin_cons]
        simp only [List.length_append, List.length_cons, List.singleton_append]
        omega
    cases fuel with
    | zero => exact absurd hfuel (by omega)
    | succ fu =>
      obtain ⟨s3, hh⟩ := ih fu (acc ++ [rec]) s2
        (fun rec2 h2m => hrows rec2 (by simp [h2m])) hg2 hview2d (by omega)
      refine ⟨s3, ?_⟩
      rw [ScanAllGo, if_pos (by simp [he]), hrec1]
      show ScanAllGo fu (acc ++ [rec]) s2 = _
      rw [hh]
      simp

theorem writeRecords_cons (g : Generator) (rec : List (List Char))
    (rows : List (List (List Char))) :
    writeRecords g (rec :: rows) = writeRecords (writeRecord g rec) rows := rfl

theorem writeRecord_w_of_ne {g : Generator} (rec : List (List Char))
    (h : g.w ≠ []) :
    (writeRecord g rec).w = g.w ++ ('\n' :: recordText g.rule rec) := by
  show g.w ++ (if g.w.length > 0 then ['\n'] else []) ++ recordText g.rule rec = _
  rw [if_pos (List.length_pos.mpr h)]
  simp

theorem writeRecord_rule (g : Generator) (rec : List (List Char)) :
    (writeRecord g rec).rule = g.rule := rfl

theorem writeRecord_buf (g : Generator) (rec : List (List Char)) :
    (writeRecord g rec).buf = g.buf := rfl

theorem writeRecords_w : ∀ (rows : List (List (List Char))) (g : Generator),
    g.w ≠ [] →
    (writeRecords g rows).w
        = g.w ++ tailJoin ['\n'] (rows.map (recordText g.rule)) ∧
      (writeRecords g rows).buf = g.buf ∧ (writeRecords g rows).rule = g.rule
  | [], g, _ => by
    refine ⟨?_, rfl, rfl⟩
    show g.w = g.w ++ tailJoin ['\n'] []
    simp [tailJoin]
  | rec :: rows, g, h => by
    have hw := writeRecord_w_of_ne (g := g) rec h
    have hne2 : (writeRecord g rec).w ≠ [] := by rw [hw]; simp
    have ih := writeRecords_w rows (writeRecord g rec) hne2
    rw [writeRecords_cons]
    refine ⟨?_, ?_, ?_⟩
    · rw [ih.1, hw, writeRecord_rule, List.map_cons, tailJoin_cons]
      simp
    · rw [ih.2.1, writeRecord_buf]
    · rw [ih.2.2, writeRecord_rule]

/-- What the generator actually emits for a row sequence whose records all
serialize to nonempty text: the records joined by single line
terminators. -/
theorem generateData_eq_docText {r : Rule} {rows : List (List (List Char))}
    (hrows : ∀ rec ∈ rows, rec ≠ [] ∧ rec ≠ [[]]) :
    generateData r rows = docText r rows := by
  cases rows with
  | nil => rfl
  | cons rec rows' =>
    have h0 := hrows rec (by simp)
    have hwr : writeRecord { rule := r, buf := [], w := [], finished := false } rec = { rule := r, buf := [], w := recordText r rec, finished := false } := by
      show ({ rule := r, buf := [], w := [] ++ (if ([] : List Char).length > 0 then ['\n'] else []) ++ recordText r rec, finished := false } : Generator) = _
      simp
    have hne : (recordText r rec : List Char) ≠ [] :=
      recordText_ne_nil h0.1 h0.2
    have hrw := writeRecords_w rows'
      { rule := r, buf := [], w := recordText r rec, finished := false } hne
    rw [generateData, WriteAll, if_neg (by simp), writeRecords_cons, hwr]
    show (writeRecords { rule := r, buf := [], w := recordText r rec, finished := false } rows').buf ++ (writeRecords { rule := r, buf := [], w := recordText r rec, finished := false } rows').w = _
    rw [hrw.1, hrw.2.1, docText_cons]
    simp

/-- C1: (amended) For every sequence of rows and every configuration with
whitespace trimming disabled that additionally has single-quote scanning
disabled, empty fields allowed, no prefix/suffix, comments and empty-line
omission off, the ending line break tolerated, and a separator distinct
from `"` and the line terminator, and in which no record is `[]` or `[""]`,
scanning the Generator's output for those rows yields exactly the same
rows: `scanAllData r (generateData r rows) = .ok rows`. -/
theorem roundTrip {r : Rule} (hr : RTRule r) (rows : List (List (List Char)))
    (hrows : ∀ rec ∈ rows, rec ≠ [] ∧ rec ≠ [[]]) :
    scanAllData r (generateData r rows) = .ok rows := by
  rw [generateData_eq_docText hrows]
  obtain ⟨s, h1, h2, h3⟩ := newScanner_stream hr.stream (docText r rows)
  obtain ⟨s2, hh⟩ := ScanAllGo_stream hr rows (fuelOf s) [] s hrows h2 h3
    (view_lt_fuelOf h2)
  rw [scanAllData, h1]
  show (match ScanAll s with
    | Except.error e => Except.error e
    | Except.ok (rows, _) => Except.ok rows) = Except.ok rows
  rw [ScanAll, hh]
  show Except.ok ([] ++ rows) = Except.ok rows
  rfl

/-- C1 counterexample: under a configuration with trimming disabled (the
default dialect otherwise, so single-quote scanning is on), the single row
whose only field is a lone `'` does not round-trip: the generator emits it
unquoted (its quoting test looks only for `"`, the line terminator and the
separator) and the scanner then treats it as an unterminated quoted field. -/
theorem roundTrip_counterexample :
    generateData c1cfg [[['\'']]] = ['\''] ∧
    scanAllData c1cfg (generateData c1cfg [[['\'']]])
      = .error .trailingQuoteNotFound :=
  ⟨rfl, rfl⟩

/-- C1 witness: the amended round-trip law applied at a concrete dialect
and concrete rows. -/
theorem roundTrip_witness :
    RTRule c1wcfg ∧ scanAllData c1wcfg (generateData c1wcfg c1rows) = .ok c1rows :=
  ⟨⟨rfl, rfl, rfl, rfl, rfl, rfl, by decide, by decide, ⟨rfl, rfl, rfl⟩⟩,
   roundTrip ⟨rfl, rfl, rfl, rfl, rfl, rfl, by decide, by decide, ⟨rfl, rfl, rfl⟩⟩
     c1rows (by decide)⟩

theorem escapeQuotes_length : ∀ f : List Char, f.length ≤ (escapeQuotes f).length
  | [] => Nat.le_refl _
  | c :: cs => by
    have ih := escapeQuotes_length cs
    by_cases h : c = '"' <;> simp [escapeQuotes, h] <;> omega

/-- C2: (amended) the Generator emits a field verbatim (only wrapped in the
configured prefix/suffix) iff the field contains none of the double quote,
the line terminator, and the separator.  The single-quote character plays
no role in the quoting decision, even when single-quote scanning is
enabled. -/
theorem unquoted_iff (r : Rule) (f : List Char) :
    fieldText r f = pfxPart r ++ f ++ sfxPart r ↔
      ∀ c ∈ f, c ≠ '"' ∧ c ≠ '\n' ∧ c ≠ r.separator := by
  rw [← needQuote_eq_false_iff]
  constructor
  · intro h
    cases hnq : needQuote r f with
    | false => rfl
    | true =>
      rw [fieldText, hnq, if_pos rfl] at h
      have h3 : ('"' :: (escapeQuotes f ++ ['"'])) = f :=
        List.append_cancel_left (List.append_cancel_right h)
      have h4 := congrArg List.length h3
      have h5 := escapeQuotes_length f
      simp only [List.length_cons, List.length_append, List.length_singleton] at h4
      omega
  · intro h
    simp [fieldText, h]

/-- C2 counterexample: with the default dialect (single quotes are a
configured quote character for scanning), the field `a'b` contains a
configured quote character yet is emitted verbatim, unquoted. -/
theorem unquoted_iff_counterexample :
    fieldText defaultRule ['a', '\'', 'b'] = ['a', '\'', 'b'] ∧
    defaultRule.isQuote '\'' = true :=
  ⟨rfl, rfl⟩

/-- C2 witness: the amended law applied at the default dialect and a plain
field. -/
theorem unquoted_iff_witness :
    fieldText defaultRule ['a', 'b'] = pfxPart defaultRule ++ ['a', 'b'] ++ sfxPart defaultRule :=
  (unquoted_iff defaultRule ['a', 'b']).mpr (by decide)

/-- C3: at the failing input, the code's actual behaviour (the claim says
this must not happen): scanning `"a\n;b\nc"` with comment character `;`
drops the comment line `;b` even though it is read while a quote is open,
yielding the field `a\nc` instead of `a\n;b\nc`. -/
theorem comment_skipped_inside_quotes :
    scanAllData (mkRule [Comment ';'])
      ['"', 'a', '\n', ';', 'b', '\n', 'c', '"']
      = .ok [[['a', '\n', 'c']]] := rfl

theorem skipLoop_rule : ∀ (fuel : Nat) (s : Scanner), (skipLoop fuel s).rule = s.rule
  | 0, _ => rfl
  | fuel + 1, s => by
    rw [skipLoop]
    split
    · exact (skipLoop_rule fuel _).trans rfl
    · rfl

/-- `nextLine` can only fail when `allowEndingLineBreakInLastRecord` is
unset: with it set, every call succeeds (the comment/empty-line loop never
errors). -/
theorem nextLine_ok_of_allow {s : Scanner}
    (h : s.rule.allowEndingLineBreakInLastRecord = true) :
    ∃ s2, nextLine s = .ok s2 := by
  have hrule : (skipLoop
      ((readNextLine { s with lineNo := s.lineNo + 1 }).input.length + 2)
      (readNextLine { s with lineNo := s.lineNo + 1 })).rule = s.rule :=
    (skipLoop_rule _ _).trans rfl
  rw [nextLine, nextLineAfterSkip]
  split
  · rw [if_neg (by simp [hrule, h])]
    exact ⟨_, rfl⟩
  · exact ⟨_, rfl⟩

/-- C4: (amended) construction performs no dialect validation whatsoever:
for every settings list whose resulting rule tolerates an ending line
break (the default), `NewScanner` succeeds — including under conflicting
punctuation such as a quote character equal to the separator — and
`NewGenerator` cannot fail by its very signature.  Misbehaviour of a
conflicting dialect surfaces only at scan time, if at all. -/
theorem construction_never_validates (data : List Char) (settings : List Setting)
    (h : (mkRule settings).allowEndingLineBreakInLastRecord = true) :
    isOkScan (NewScanner data settings) = true ∧
    (NewGenerator settings).finished = false := by
  refine ⟨?_, rfl⟩
  rw [NewScanner, NewScannerR, next, if_pos (by simp)]
  obtain ⟨s2, h2⟩ := nextLine_ok_of_allow
    (s := { rule := mkRule settings, input := data, line := [], lineNo := 0, pos := 0, c := noRune, eof := false, lastLine := false }) h
  rw [h2]
  rfl

/-- C4 counterexample: with the separator set to the double quote — a
conflicting dialect the claim says must be rejected at construction —
`NewScanner` succeeds and `Scan` happily scans a document. -/
theorem construction_never_validates_counterexample :
    scanAllData (mkRule [Separator '"']) ['x'] = .ok [[['x']]] := rfl

/-- C4 witness: the amended claim applied at the conflicting dialect of
the counterexample. -/
theorem construction_never_validates_witness :
    isOkScan (NewScanner ['x'] [Separator '"']) = true ∧
    (NewGenerator [Separator '"']).finished = false :=
  construction_never_validates ['x'] [Separator '"'] rfl

theorem fieldText_getLast {r : Rule} (hp : r.pfx ≠ '\n') (hs : r.sfx ≠ '\n')
    (f : List Char) :
    fieldText r f = [] ∨ (fieldText r f).getLast? ≠ some '\n' := by
  by_cases hsfx : r.sfx = noRune
  · by_cases hnq : needQuote r f = true
    · right
      rw [fieldText, hnq, if_pos rfl, sfxPart, if_neg (by simp [hsfx]),
        List.append_nil,
        show ('"' :: (escapeQuotes f ++ ['"'])) = ('"' :: escapeQuotes f) ++ ['"'] by simp,
        ← List.append_assoc, List.getLast?_concat]
      simp
    · have hnq2 : needQuote r f = false := by
        cases h2 : needQuote r f with
        | false => rfl
        | true => exact absurd h2 hnq
      rw [fieldText, hnq2, if_neg (by simp), sfxPart, if_neg (by simp [hsfx]),
        List.append_nil]
      cases f with
      | nil =>
        rw [List.append_nil, pfxPart]
        by_cases hpfx : r.pfx = noRune
        · rw [if_neg (by simp [hpfx])]
          exact Or.inl rfl
        · rw [if_pos hpfx]
          right
          simp [hp]
      | cons a as =>
        right
        rw [List.getLast?_append_of_ne_nil _ (by simp)]
        intro hcontra
        have hmem : '\n' ∈ a :: as :=
          List.mem_of_mem_getLast? (by rw [hcontra]; rfl)
        exact (needQuote_eq_false_iff.mp hnq2 '\n' hmem).2.1 rfl
  · right
    rw [fieldText, sfxPart, if_pos hsfx, List.getLast?_concat]
    simp [hs]

theorem joinSep_getLast_sep {c0 : Char} (hc : c0 ≠ '\n') :
    ∀ (L : List (List Char)),
    (∀ x ∈ L, x = [] ∨ x.getLast? ≠ some '\n') →
    joinSep [c0] L = [] ∨ (joinSep [c0] L).getLast? ≠ some '\n'
  | [], _ => Or.inl rfl
  | [x], h => h x (by simp)
  | x :: y :: ys, h => by
    have ih := joinSep_getLast_sep hc (y :: ys) (fun z hz => h z (by simp [hz]))
    right
    rw [joinSep]
    by_cases hJ : joinSep [c0] (y :: ys) = []
    · rw [hJ, List.append_nil, List.getLast?_concat]
      simp [hc]
    · rw [List.getLast?_append_of_ne_nil _ hJ]
      rcases ih with h1 | h2
      · exact absurd h1 hJ
      · exact h2

theorem joinSep_ne_nil_head {c0 : Char} {y : List Char} (ys : List (List Char))
    (hy : y ≠ []) : joinSep [c0] (y :: ys) ≠ [] := by
  rw [joinSep_cons]
  intro hcontra
  exact hy (List.append_eq_nil.mp hcontra).1

theorem joinSep_getLast_strong (c0 : Char) :
    ∀ (L : List (List Char)),
    (∀ x ∈ L, x ≠ [] ∧ x.getLast? ≠ some '\n') →
    joinSep [c0] L = [] ∨ (joinSep [c0] L).getLast? ≠ some '\n'
  | [], _ => Or.inl rfl
  | [x], h => Or.inr (h x (by simp)).2
  | x :: y :: ys, h => by
    have ih := joinSep_getLast_strong c0 (y :: ys) (fun z hz => h z (by simp [hz]))
    have hne : joinSep [c0] (y :: ys) ≠ [] := joinSep_ne_nil_head ys (h y (by simp)).1
    right
    rw [joinSep, List.getLast?_append_of_ne_nil _ hne]
    rcases ih with h1 | h2
    · exact absurd h1 hne
    · exact h2

theorem recordText_getLast {r : Rule} (hsep : r.separator ≠ '\n')
    (hp : r.pfx ≠ '\n') (hs : r.sfx ≠ '\n') (rec : List (List Char)) :
    recordText r rec = [] ∨ (recordText r rec).getLast? ≠ some '\n' := by
  rw [recordText]
  refine joinSep_getLast_sep hsep _ ?_
  intro x hx
  obtain ⟨f, _, rfl⟩ := List.mem_map.mp hx
  exact fieldText_getLast hp hs f

/-- C5: (amended) a line terminator is emitted immediately before a record
iff the writer buffer already holds at least one byte.  Consequently, when
every record serializes to nonempty text (no record is `[]` or `[""]`) and
none of separator/prefix/suffix is the line terminator itself, the
finished output is the records joined by single line terminators and does
not end with a trailing line terminator. -/
theorem generator_separated_output {r : Rule} (rows : List (List (List Char)))
    (hsep : r.separator ≠ '\n') (hp : r.pfx ≠ '\n') (hs : r.sfx ≠ '\n')
    (hrows : ∀ rec ∈ rows, rec ≠ [] ∧ rec ≠ [[]]) :
    generateData r rows = joinSep ['\n'] (rows.map (recordText r)) ∧
    (generateData r rows).getLast? ≠ some '\n' := by
  have h1 := generateData_eq_docText (r := r) hrows
  refine ⟨h1, ?_⟩
  rw [h1, docText]
  have helem : ∀ x ∈ rows.map (recordText r), x ≠ [] ∧ x.getLast? ≠ some '\n' := by
    intro x hx
    obtain ⟨rec, hrm, rfl⟩ := List.mem_map.mp hx
    have h0 := hrows rec hrm
    refine ⟨recordText_ne_nil h0.1 h0.2, ?_⟩
    rcases recordText_getLast hsep hp hs rec with hnil | hlast
    · exact absurd hnil (recordText_ne_nil h0.1 h0.2)
    · exact hlast
  rcases joinSep_getLast_strong '\n' (rows.map (recordText r)) helem with hnil | hlast
  · rw [hnil]; simp
  · exact hlast

/-- C5 counterexample: writing the record `["a"]` and then the record
`[""]` yields the output `a\n` — the finished output ends with a line
terminator, because the final record contributed no bytes while the
record-separating terminator was still emitted. -/
theorem generator_separated_output_counterexample :
    generateData defaultRule [[['a']], [[]]] = ['a', '\n'] ∧
    (generateData defaultRule [[['a']], [[]]]).getLast? = some '\n' :=
  ⟨rfl, rfl⟩

/-- C5 witness: the amended law applied at the default dialect and two
concrete records (the second ending in an empty field, which is fine — the
record itself still serializes to nonempty text). -/
theorem generator_separated_output_witness :
    generateData defaultRule [[['a']], [['b'], []]]
      = joinSep ['\n'] ([[['a']], [['b'], []]].map (recordText defaultRule)) ∧
    (generateData defaultRule [[['a']], [['b'], []]]).getLast? ≠ some '\n' :=
  generator_separated_output [[['a']], [['b'], []]]
    (by decide) (by decide) (by decide) (by decide)

theorem writeRecords_finished : ∀ (rows : List (List (List Char))) (g : Generator),
    (writeRecords g rows).finished = g.finished
  | [], _ => rfl
  | rec :: rows, g => by
    rw [writeRecords_cons, writeRecords_finished rows]
    rfl

/-- C6: `Finish` seals the generator; the seal is never cleared by any
operation (`Write`/`WriteAll` preserve the flag, `Finish` only sets it),
and every `Write`/`WriteAll` on a sealed generator fails with the
sealed-generator error leaving the state unchanged — nothing is appended. -/
theorem sealed_terminal :
    (∀ g : Generator, ((Finish g).2).finished = true) ∧
    (∀ (g : Generator) (rec : List (List Char)), g.finished = true →
      Write g rec = (some .finishedGen, g)) ∧
    (∀ (g : Generator) (rows : List (List (List Char))), g.finished = true →
      WriteAll g rows = (some .finishedGen, g)) ∧
    (∀ (g : Generator) (rec : List (List Char)),
      ((Write g rec).2).finished = g.finished) ∧
    (∀ (g : Generator) (rows : List (List (List Char))),
      ((WriteAll g rows).2).finished = g.finished) := by
  refine ⟨fun g => rfl, ?_, ?_, ?_, ?_⟩
  · intro g rec h
    rw [Write, if_pos h]
  · intro g rows h
    rw [WriteAll, if_pos h]
  · intro g rec
    rw [Write]
    split
    · rfl
    · rfl
  · intro g rows
    rw [WriteAll]
    split
    · rfl
    · exact writeRecords_finished rows g

/-- C6 witness: the sealed-generator law applied to a freshly finished
generator. -/
theorem sealed_terminal_witness :
    ((Finish (NewGenerator [])).2).finished = true ∧
    Write (Finish (NewGenerator [])).2 [['a']]
      = (some .finishedGen, (Finish (NewGenerator [])).2) :=
  ⟨sealed_terminal.1 (NewGenerator []),
   sealed_terminal.2.1 (Finish (NewGenerator [])).2 [['a']]
     (sealed_terminal.1 (NewGenerator []))⟩

/-- C7: with both quote styles enabled (the default dialect), the input
`"aa'a",'bb""b'` scans to one row with exactly the fields `aa'a` and
`bb""b`: an opposite-style quote inside a quoted field is literal text and
the field closes only at its own leading quote (so the doubled `""` inside
the `'`-quoted field stays doubled). -/
theorem mixed_quote_styles :
    scanAllData defaultRule
      ['"', 'a', 'a', '\'', 'a', '"', ',', '\'', 'b', 'b', '"', '"', 'b', '\'']
      = .ok [[['a', 'a', '\'', 'a'], ['b', 'b', '"', '"', 'b']]] := rfl

/-- C9: `Scan` returns `(nil, io.EOF)` exactly when called with the
end-of-input flag already set, and whenever a record scan succeeds, the
row is returned in that same call together with `io.EOF` iff that record
consumed the rest of the input (the last record), with no error
otherwise. -/
theorem scan_final_row_with_eof (s : Scanner) :
    (Scan s = (none, some .ioEOF, s) ↔ s.eof = true) ∧
    (∀ (row : List (List Char)) (s2 : Scanner), s.eof = false →
      scanRecord s = .ok (row, s2) →
      (s2.eof = true → Scan s = (some row, some .ioEOF, s2)) ∧
      (s2.eof = false → Scan s = (some row, none, s2))) := by
  constructor
  · constructor
    · intro h
      by_contra hne
      have he : s.eof = false := by
        cases he2 : s.eof with
        | false => rfl
        | true => exact absurd he2 hne
      rw [Scan, if_neg (by simp [he])] at h
      cases hsr : scanRecord s with
      | error e => rw [hsr] at h; simp at h
      | ok p =>
        obtain ⟨row, s2⟩ := p
        rw [hsr] at h
        simp at h
    · intro h
      rw [Scan, if_pos h]
  · intro row s2 he hsr
    constructor
    · intro h2
      rw [Scan, if_neg (by simp [he]), hsr]
      simp [h2]
    · intro h2
      rw [Scan, if_neg (by simp [he]), hsr]
      simp [h2]

/-- C9 witness: on the document `a`, the single (final) record is returned
together with `io.EOF` in the same `Scan` call. -/
theorem scan_final_row_with_eof_witness :
    Scan c9s = (some [['a']], some .ioEOF, c9sF) :=
  ((scan_final_row_with_eof c9s).2 [['a']] c9sF rfl rfl).1 rfl

/-- C10: `Finish` drains the accumulated output: the first call returns
the document (`buf ++ w`), and a second call returns the empty byte slice
rather than the document again (no error is possible in memory). -/
theorem finish_drains (g : Generator) :
    (Finish g).1 = g.buf ++ g.w ∧ (Finish ((Finish g).2)).1 = [] :=
  ⟨rfl, rfl⟩

theorem isUnexpectedQuoteErr_eq_false {α : Type} (x : Except ScanErr α)
    (h : ∀ c : Char, x ≠ .error (.unexpectedQuote c)) :
    isUnexpectedQuoteErr x = false := by
  cases x with
  | ok a => rfl
  | error e =>
    cases e
    case unexpectedQuote c => exact absurd rfl (h c)
    all_goals rfl

theorem err_ne_uq {α β : Type} {e : ScanErr} {x : Except ScanErr α} {c : Char}
    (hx : x = .error e) (hne : x ≠ .error (.unexpectedQuote c)) :
    (Except.error e : Except ScanErr β) ≠ .error (.unexpectedQuote c) := by
  intro h
  injection h with he
  exact hne (by rw [hx, he])

theorem nextLine_no_uq {s : Scanner} {c : Char} :
    nextLine s ≠ .error (.unexpectedQuote c) := by
  rw [nextLine, nextLineAfterSkip]
  split
  · split <;> simp
  · simp

theorem next_no_uq {s : Scanner} {c : Char} :
    next s ≠ .error (.unexpectedQuote c) := by
  rw [next]
  split
  · exact nextLine_no_uq
  · simp

theorem scanSPACEGo_no_uq : ∀ (fuel : Nat) (s : Scanner) {c : Char},
    scanSPACEGo fuel s ≠ .error (.unexpectedQuote c)
  | 0, s, c => by rw [scanSPACEGo]; simp
  | fuel + 1, s, c => by
    rw [scanSPACEGo]
    split
    · cases hnext : next s with
      | error e =>
        simp only [hnext]
        exact err_ne_uq hnext next_no_uq
      | ok s2 =>
        simp only [hnext]
        exact scanSPACEGo_no_uq fuel s2
    · simp

theorem scanSPACE_no_uq {s : Scanner} {c : Char} :
    scanSPACE s ≠ .error (.unexpectedQuote c) := scanSPACEGo_no_uq (fuelOf s) s

theorem scanQUOTE_no_uq {s : Scanner} {c : Char} :
    scanQUOTE s ≠ .error (.unexpectedQuote c) := by
  rw [scanQUOTE]
  split
  · simp
  · cases hnext : next s with
    | error e =>
      simp only [hnext]
      exact err_ne_uq hnext next_no_uq
    | ok s2 => simp [hnext]

theorem scanEscapedGo_no_uq : ∀ (fuel : Nat) (leading : Char)
    (acc : List Char) (found : Bool) (s : Scanner) {c : Char},
    scanEscapedGo fuel leading acc found s ≠ .error (.unexpectedQuote c)
  | 0, _, _, _, _, _ => by rw [scanEscapedGo]; simp
  | fuel + 1, leading, acc, found, s, c => by
    rw [scanEscapedGo]
    split
    · split <;> simp
    · split
      · split
        · split
          · simp
          · cases hnext : next s with
            | error e =>
              simp only [hnext]
              exact err_ne_uq hnext next_no_uq
            | ok s2 =>
              simp only [hnext]
              exact scanEscapedGo_no_uq fuel leading (acc ++ [s.c]) false s2
        · split
          · cases hnext : next s with
            | error e =>
              simp only [hnext]
              exact err_ne_uq hnext next_no_uq
            | ok s2 =>
              simp only [hnext]
              exact scanEscapedGo_no_uq fuel leading acc true s2
          · cases hnext : next s with
            | error e =>
              simp only [hnext]
              exact err_ne_uq hnext next_no_uq
            | ok s2 =>
              simp only [hnext]
              exact scanEscapedGo_no_uq fuel leading (acc ++ [s.c]) false s2
      · split
        · simp
        · cases hnext : next s with
          | error e =>
            simp only [hnext]
            exact err_ne_uq hnext next_no_uq
          | ok s2 =>
            simp only [hnext]
            exact scanEscapedGo_no_uq fuel leading (acc ++ [s.c]) false s2

theorem scanEscaped_no_uq {s : Scanner} {c : Char} :
    scanEscaped s ≠ .error (.unexpectedQuote c) := by
  rw [scanEscaped]
  cases hq : scanQUOTE s with
  | error e =>
    simp only [hq]
    exact err_ne_uq hq scanQUOTE_no_uq
  | ok p =>
    obtain ⟨q, s1⟩ := p
    simp only [hq]
    exact scanEscapedGo_no_uq (fuelOf s1) q [] false s1

theorem scanNonEscapedGo_no_uq : ∀ (fuel : Nat) (acc : List Char) (s : Scanner)
    {c : Char}, scanNonEscapedGo fuel acc s ≠ .error (.unexpectedQuote c)
  | 0, _, _, _ => by rw [scanNonEscapedGo]; simp
  | fuel + 1, acc, s, c => by
    rw [scanNonEscapedGo]
    split
    · cases hnext : next s with
      | error e =>
        simp only [hnext]
        exact err_ne_uq hnext next_no_uq
      | ok s2 =>
        simp only [hnext]
        exact scanNonEscapedGo_no_uq fuel (acc ++ [s.c]) s2
    · simp

/-- `scanNonEscaped` can raise the "unexpected quote" error only through
its entry check: when the current rune is not a quote, no execution path
produces it. -/
theorem scanNonEscaped_no_uq {s : Scanner} {c : Char}
    (hq : s.rule.isQuote s.c = false) :
    scanNonEscaped s ≠ .error (.unexpectedQuote c) := by
  rw [scanNonEscaped]
  split
  · simp
  · rw [if_neg (by simp [hq])]
    cases hgo : scanNonEscapedGo (fuelOf s) [] s with
    | error e =>
      simp only [hgo]
      exact err_ne_uq hgo (scanNonEscapedGo_no_uq (fuelOf s) [] s)
    | ok p =>
      obtain ⟨acc, s2⟩ := p
      simp only [hgo]
      split
      · split
        · simp
        · cases hnext : next s2 with
          | error e =>
            simp only [hnext]
            exact err_ne_uq hnext next_no_uq
          | ok s3 => simp [hnext]
      · simp

/-- C8: the "unexpected character, expect text" branch of `scanNonEscaped`
is unreachable through `scanField`: the mode dispatch sends quote-initial
fields to `scanEscaped`, so no `scanField` call ever returns the
unexpected-quote error. -/
theorem unquoted_quote_error_unreachable (s : Scanner) :
    isUnexpectedQuoteErr (scanField s) = false := by
  refine isUnexpectedQuoteErr_eq_false _ ?_
  intro c
  rw [scanField]
  cases h1 : (if s.rule.omitLeadingSpace then scanSPACE s else Except.ok s) with
  | error e =>
    simp only [h1]
    refine err_ne_uq h1 ?_
    split
    · exact scanSPACE_no_uq
    · simp
  | ok s1 =>
    simp only [h1]
    cases h2 : (if s1.rule.pfx ≠ noRune then
        (if s1.c = s1.rule.pfx then next s1 else Except.error ScanErr.prefixNotFound)
      else Except.ok s1) with
    | error e =>
      simp only [h2]
      refine err_ne_uq h2 ?_
      split
      · split
        · exact next_no_uq
        · simp
      · simp
    | ok s2 =>
      simp only [h2]
      split
      · rename_i e h3
        refine err_ne_uq h3 ?_
        split
        · cases h4 : scanEscaped s2 with
          | error e2 =>
            simp only [h4]
            exact err_ne_uq h4 scanEscaped_no_uq
          | ok p =>
            obtain ⟨f, s3⟩ := p
            simp only [h4]
            split
            · split
              · simp
              · cases h5 : next s3 with
                | error e3 =>
                  simp only [h5]
                  exact err_ne_uq h5 next_no_uq
                | ok s4 => simp [h5]
            · simp
        · rename_i hq
          refine scanNonEscaped_no_uq ?_
          revert hq
          cases s2.rule.isQuote s2.c <;> simp
      · rename_i f s4 h3
        split
        · cases h5 : scanSPACE s4 with
          | error e2 =>
            simp only [h5]
            exact err_ne_uq h5 scanSPACE_no_uq
          | ok s5 => simp [h5]
        · simp

end Csv
